import Mathlib

/-!
Verification development for the `spaces` CLI: shallow embedding of the
workspace-resolution and stack-dependency subsystem (fuzzy matcher, workspace
ranker, resolver, stack graph, rebase orchestrator) and proofs of the
specification's testable properties against it.
-/

namespace Spaces

/-! ## Data model (src/types/config.ts, src/types/workspace-fuzzy.ts) -/

/-- `StackMetadata` from `src/types/config.ts`: the persisted stack edge for
one child workspace. -/
structure StackMetadata where
  basedOn : String
  baseBranch : String
deriving DecidableEq, Repr

/-- The `stacks` field of a project config: a JS object keyed by child
workspace name, modelled as an association list with unique keys in
insertion order. -/
abbrev Stacks := List (String × StackMetadata)

/-! ### JS object primitives over the association-list model -/

/-- JS property read `obj[k]`: first (and only) binding for `k`. -/
def objGet (m : Stacks) (k : String) : Option StackMetadata :=
  (List.find? (fun p => p.1 = k) m).map Prod.snd

/-- JS property write `obj[k] = v`: replace the (unique) binding in place
when the key exists, append otherwise (JS objects keep insertion order). -/
def objSet : Stacks → String → StackMetadata → Stacks
  | [], k, v => [(k, v)]
  | p :: rest, k, v => if p.1 = k then (k, v) :: rest else p :: objSet rest k v

/-- JS `delete obj[k]`. -/
def objDelete (m : Stacks) (k : String) : Stacks :=
  List.filter (fun p => ¬ p.1 = k) m

/-! ## Stack graph (src/utils/stack.ts)

The project config is reduced to the one field these functions read and
write: `stacks?: Record<string, StackMetadata>`, i.e. `Option Stacks`
(`none` models an absent `stacks` property). -/

/-- `getStackMetadata`: `config.stacks?.[workspaceName] || null`. -/
def getStackMetadata (st : Option Stacks) (workspaceName : String) :
    Option StackMetadata :=
  match st with
  | none => none
  | some m => objGet m workspaceName

/-- `setStackMetadata`: create the `stacks` object when absent, then
`config.stacks[workspaceName] = metadata`. -/
def setStackMetadata (st : Option Stacks) (workspaceName : String)
    (metadata : StackMetadata) : Option Stacks :=
  match st with
  | none => some (objSet ([] : List (String × StackMetadata)) workspaceName metadata)
  | some m => some (objSet m workspaceName metadata)

/-- `removeStackMetadata`: `delete config.stacks[workspaceName]` when the
`stacks` object exists, otherwise leave the config untouched. -/
def removeStackMetadata (st : Option Stacks) (workspaceName : String) :
    Option Stacks :=
  match st with
  | none => none
  | some m => some (objDelete m workspaceName)

/-- `getStackChildren`: all child names whose stored `basedOn` equals the
given workspace, in object (insertion) order. -/
def getStackChildren (st : Option Stacks) (workspaceName : String) :
    List String :=
  match st with
  | none => []
  | some m => List.map Prod.fst (List.filter (fun p => p.2.basedOn = workspaceName) m)

/-- `getStackParent`: repackage the stored metadata as
`{ workspaceName, branch }`. -/
def getStackParent (st : Option Stacks) (workspaceName : String) :
    Option (String × String) :=
  match getStackMetadata st workspaceName with
  | none => none
  | some metadata => some (metadata.basedOn, metadata.baseBranch)

/-! ## Cycle detection (src/utils/stack.ts, `detectCircularDependency`)

The JS `while (current)` loop is embedded as a fuel-indexed step function
returning `Option Bool`; `none` means the fuel ran out before the loop
finished.  `detectLoop_isSome_of_fuel` below proves the fuel chosen in
`detectCircularDependency` always suffices, so the embedding is total on
exactly the states the loop reaches. -/

/-- `current = parent?.workspaceName || ''`: the next node of the upward
walk, with the empty string standing for JS's falsy "no parent". -/
def stepParent (st : Option Stacks) (current : String) : String :=
  match getStackParent st current with
  | none => ""
  | some p => p.1

/-- One fuel-indexed unfolding of the `while (current)` loop of
`detectCircularDependency`. -/
def detectLoop (st : Option Stacks) (newWorkspace : String) :
    Nat → String → List String → Option Bool
  | 0, current, _ => if current = "" then some false else none
  | fuel + 1, current, visited =>
      if current = "" then some false
      else if visited.contains current || (current == newWorkspace) then some true
      else detectLoop st newWorkspace fuel (stepParent st current) (current :: visited)

/-- The number of stored edges, used as the fuel budget: the walk consumes a
distinct key of the edge map at every step that continues. -/
def stacksSize (st : Option Stacks) : Nat :=
  match st with
  | none => 0
  | some m => m.length

/-- `detectCircularDependency(projectName, parentWorkspace, newWorkspace)`:
walk upward from `parentWorkspace`, returning true on a revisit or on
reaching `newWorkspace`, false on reaching a root. -/
def detectCircularDependency (st : Option Stacks)
    (parentWorkspace newWorkspace : String) : Bool :=
  (detectLoop st newWorkspace (stacksSize st + 2) parentWorkspace []).getD false

/-! ## Fuzzy matcher (src/utils/fuzzy-match.ts) -/

/-- Result record of `calculateMatchScore`. -/
structure MatchResult where
  score : Int
  matchedIndices : List Nat
deriving DecidableEq, Repr

/-- JS `str.indexOf(c, start)` on the character list: first index `≥ start`
holding `c`. -/
def indexOfFrom : List Char → Char → Nat → Option Nat
  | [], _, _ => none
  | a :: rest, c, 0 => if a = c then some 0 else (indexOfFrom rest c 0).map (· + 1)
  | _ :: rest, c, start + 1 => (indexOfFrom rest c start).map (· + 1)

/-- The subsequence-search loop of `calculateMatchScore`: for each query
character, its next occurrence in the candidate starting at `ci` (one past
the previous match); `none` when some character has no remaining
occurrence. -/
def findIndices : List Char → List Char → Nat → Option (List Nat)
  | [], _, _ => some []
  | qc :: qs, cand, ci =>
      match indexOfFrom cand qc ci with
      | none => none
      | some idx => (findIndices qs cand (idx + 1)).map (idx :: ·)

/-- The word-boundary characters of the scorer. -/
def boundaryChars : List Char := ['-', '_', '/']

/-- The per-character bonus/penalty loop of `calculateMatchScore`, over the
original (non-lowercased) query and candidate. -/
def scoreBonuses (query candidate : List Char) (idxs : List Nat) : Int :=
  (List.range idxs.length).foldl (fun acc i =>
    let index := idxs.getD i 0
    let acc := if 0 < i ∧ idxs.getD i 0 = idxs.getD (i - 1) 0 + 1 then acc + 10 else acc
    let acc := if index = 0 ∨ boundaryChars.contains (candidate.getD (index - 1) ' ') then
        acc + 5
      else acc
    let acc := if query.getD i ' ' = candidate.getD index ' ' then acc + 2 else acc
    if 0 < i then acc - ((idxs.getD i 0 : Int) - (idxs.getD (i - 1) 0 : Int) - 1) else acc) 0

/-- `calculateMatchScore(query, candidate)`: empty inputs score 0; otherwise
greedily match the lowercased query left-to-right in the lowercased
candidate, failing to `(0, [])`, and on success score 50 plus a start bonus
plus the per-character bonuses. -/
def calculateMatchScore (query candidate : String) : MatchResult :=
  if query.isEmpty || candidate.isEmpty then ⟨0, []⟩
  else
    match findIndices (query.toList.map Char.toLower) (candidate.toList.map Char.toLower) 0 with
    | none => ⟨0, []⟩
    | some idxs =>
        let startBonus : Int := if idxs.head? = some 0 then 15 else 0
        ⟨50 + startBonus + scoreBonuses query.toList candidate.toList idxs, idxs⟩

/-! ## Candidates, matches and ranking (src/types/workspace-fuzzy.ts,
src/commands/switch.ts) -/

/-- `WorkspaceCandidate` from `src/types/workspace-fuzzy.ts`. -/
structure WorkspaceCandidate where
  name : String
  path : String
  branch : String
  ahead : Int
  behind : Int
  uncommittedChanges : Int
  lastCommit : String
  hasActiveTmuxSession : Bool
deriving DecidableEq, Repr

/-- `FuzzyMatch` from `src/types/workspace-fuzzy.ts`. -/
structure FuzzyMatchR where
  item : WorkspaceCandidate
  score : Int
  matchedIndices : List Nat
deriving DecidableEq, Repr

/-- `RankedWorkspace` from `src/types/workspace-fuzzy.ts`. -/
structure RankedWorkspace where
  workspace : WorkspaceCandidate
  matchScore : Int
  finalScore : Int
  matchedIndices : List Nat
deriving DecidableEq, Repr

/-- Stable insertion step for a descending sort keyed by `key`: an element
goes before the first list entry whose key is `≤` its own, so earlier input
wins ties. -/
def insertDescBy {α : Type} (key : α → Int) (x : α) : List α → List α
  | [] => [x]
  | y :: ys => if key y ≤ key x then x :: y :: ys else y :: insertDescBy key x ys

/-- Stable descending sort by `key`: the model of JS
`arr.sort((a, b) => key(b) - key(a))` (stable per the ECMAScript spec). -/
def sortDescBy {α : Type} (key : α → Int) : List α → List α
  | [] => []
  | x :: xs => insertDescBy key x (sortDescBy key xs)

/-- `fuzzyMatch(query, candidates)`: score every candidate's name, keep
scores `≥ 30`, sort by score descending. -/
def fuzzyMatch (query : String) (candidates : List WorkspaceCandidate) :
    List FuzzyMatchR :=
  sortDescBy (fun m => m.score)
    (candidates.filterMap (fun c =>
      let r := calculateMatchScore query c.name
      if 30 ≤ r.score then some ⟨c, r.score, r.matchedIndices⟩ else none))

/-- The per-match re-scoring of `rankMatches`: +5 for a name of at most 15
characters, +10 for an active session. -/
def rankEntry (m : FuzzyMatchR) : RankedWorkspace where
  workspace := m.item
  matchScore := m.score
  finalScore := m.score + (if m.item.name.length ≤ 15 then 5 else 0)
      + (if m.item.hasActiveTmuxSession then 10 else 0)
  matchedIndices := m.matchedIndices

/-- `rankMatches(matches)`: re-score, then sort by `finalScore`
descending. -/
def rankMatches (ms : List FuzzyMatchR) : List RankedWorkspace :=
  sortDescBy (fun r => r.finalScore) (ms.map rankEntry)

/-! ## Resolver (src/commands/switch.ts, name-selection logic of
`switchWorkspace`) -/

/-- The four ways `switchWorkspace` can settle a typed name. -/
inductive ResolveResult where
  | exact (name : String)
  | notFound
  | fuzzyAuto (name : String)
  | ambiguous (ranked : List RankedWorkspace)
deriving DecidableEq, Repr

/-- The name-resolution decision of `switchWorkspace` for a typed
`workspaceNameArg`: exact directory-name hit wins outright; otherwise fuzzy
match against the gathered candidates, erroring on no match, auto-selecting
the top ranked entry on a single match or `--force`, and otherwise handing
the ranked list to interactive selection. -/
def resolveWorkspaceName (workspaces : List String)
    (candidates : List WorkspaceCandidate) (query : String) (force : Bool) :
    ResolveResult :=
  if workspaces.contains query then ResolveResult.exact query
  else
    let ms := fuzzyMatch query candidates
    if ms.isEmpty then ResolveResult.notFound
    else
      let ranked := rankMatches ms
      if ranked.length = 1 || force then
        match ranked.head? with
        | some r => ResolveResult.fuzzyAuto r.workspace.name
        | none => ResolveResult.notFound
      else ResolveResult.ambiguous ranked

/-! ## Rebase orchestration (src/commands/switch.ts `rebaseStack`,
src/commands/remove.ts cascade inside `removeWorkspace`)

The external git/tmux collaborators are injected as environment records;
the list of `GitOp`s emitted records which git mutations were actually
attempted, in order. -/

/-- A git mutation attempted on a child workspace. -/
inductive GitOp where
  | fetch
  | rebase
deriving DecidableEq, Repr

/-- Per-child outcome of the removal cascade. -/
inductive ChildOutcome where
  | success
  | failed
deriving DecidableEq, Repr

/-- The observable state of one child workspace and of the git commands run
in it: whether its working tree has uncommitted changes, and whether the
fetch/rebase commands would exit zero. -/
structure ChildEnv where
  statusDirty : Bool
  fetchOk : Bool
  rebaseOk : Bool
deriving DecidableEq, Repr

/-- One iteration of the `for (const child of children)` cascade in
`removeWorkspace`: fetch the new base into the child, rebase onto it, and on
success re-point (or, with no grandparent, delete) the child's stack edge;
any failure is caught, leaving the edge untouched.  Note the child's
`statusDirty` flag is never consulted. -/
def cascadeChild (parent : Option (String × String)) (parentExists : Bool)
    (env : ChildEnv) (st : Option Stacks) (child : String) :
    Option Stacks × ChildOutcome × List GitOp :=
  if env.fetchOk = false then (st, ChildOutcome.failed, [GitOp.fetch])
  else if env.rebaseOk = false then (st, ChildOutcome.failed, [GitOp.fetch, GitOp.rebase])
  else
    match parent with
    | some p =>
        if parentExists then
          (setStackMetadata st child ⟨p.1, p.2⟩, ChildOutcome.success,
            [GitOp.fetch, GitOp.rebase])
        else
          (removeStackMetadata st child, ChildOutcome.success,
            [GitOp.fetch, GitOp.rebase])
    | none =>
        (removeStackMetadata st child, ChildOutcome.success,
          [GitOp.fetch, GitOp.rebase])

/-- The whole cascade: every child attempted in the supplied order, each
outcome recorded, the edge map threaded through. -/
def cascadeRebase (parent : Option (String × String)) (parentExists : Bool)
    (envOf : String → ChildEnv) (st : Option Stacks) :
    List String → Option Stacks × List (String × ChildOutcome)
  | [] => (st, [])
  | child :: rest =>
      let r := cascadeChild parent parentExists (envOf child) st child
      let rest' := cascadeRebase parent parentExists envOf r.1 rest
      (rest'.1, (child, r.2.1) :: rest'.2)

/-- How the standalone `rebase-stack` command can end. -/
inductive RebaseStackResult where
  | notStacked
  | parentMissing
  | uncommittedError
  | fetchError
  | cancelled
  | success
  | conflictError
deriving DecidableEq, Repr

/-- The injected collaborators of `rebaseStack`: the workspace's stack
metadata, whether the parent directory exists, whether `git status
--porcelain` reports anything, whether fetch/rebase would succeed, and the
user's answer to the confirmation prompt. -/
structure RebaseEnv where
  stackMeta : Option StackMetadata
  parentExists : Bool
  statusDirty : Bool
  fetchOk : Bool
  rebaseOk : Bool
  confirmed : Bool
deriving DecidableEq, Repr

/-- `rebaseStack(options)` from `src/commands/switch.ts`: error when not
stacked or the parent is gone; error on a dirty working tree **before** any
fetch; then fetch, optionally confirm, and rebase, reporting conflict
failure without aborting the paused rebase. -/
def rebaseStack (env : RebaseEnv) (auto : Bool) :
    RebaseStackResult × List GitOp :=
  match env.stackMeta with
  | none => (RebaseStackResult.notStacked, [])
  | some _ =>
      if env.parentExists = false then (RebaseStackResult.parentMissing, [])
      else if env.statusDirty then (RebaseStackResult.uncommittedError, [])
      else if env.fetchOk = false then (RebaseStackResult.fetchError, [GitOp.fetch])
      else if auto = false && env.confirmed = false then
        (RebaseStackResult.cancelled, [GitOp.fetch])
      else if env.rebaseOk then (RebaseStackResult.success, [GitOp.fetch, GitOp.rebase])
      else (RebaseStackResult.conflictError, [GitOp.fetch, GitOp.rebase])

/-! ## Helper lemmas: the association-list object model -/

theorem objGet_nil (k : String) : objGet [] k = none := rfl

theorem objGet_cons (p : String × StackMetadata) (rest : Stacks) (k : String) :
    objGet (p :: rest) k = if p.1 = k then some p.2 else objGet rest k := by
  by_cases h : p.1 = k
  · rw [objGet, List.find?_cons_of_pos _ (by simpa using h)]
    simp [h]
  · rw [objGet, List.find?_cons_of_neg _ (by simpa using h), if_neg h, objGet]

theorem objDelete_cons (p : String × StackMetadata) (rest : Stacks) (k : String) :
    objDelete (p :: rest) k
      = if p.1 = k then objDelete rest k else p :: objDelete rest k := by
  by_cases h : p.1 = k <;> simp [objDelete, List.filter_cons, h]

theorem objGet_objSet_self (m : Stacks) (k : String) (v : StackMetadata) :
    objGet (objSet m k v) k = some v := by
  induction m with
  | nil => simp [objSet, objGet_cons]
  | cons a t ih =>
      by_cases ha : a.1 = k
      · simp [objSet, ha, objGet_cons]
      · rw [objSet, if_neg ha, objGet_cons, if_neg ha]
        exact ih

theorem objGet_objSet_ne (m : Stacks) (k w : String) (v : StackMetadata)
    (hne : ¬ w = k) : objGet (objSet m k v) w = objGet m w := by
  have hkw : ¬ k = w := fun h => hne h.symm
  induction m with
  | nil => simp [objSet, objGet_cons, hkw]
  | cons a t ih =>
      by_cases ha : a.1 = k
      · have haw : ¬ a.1 = w := fun h => hkw (ha ▸ h)
        rw [objSet, if_pos ha, objGet_cons, if_neg hkw, objGet_cons, if_neg haw]
      · rw [objSet, if_neg ha, objGet_cons, objGet_cons]
        by_cases haw : a.1 = w
        · rw [if_pos haw, if_pos haw]
        · rw [if_neg haw, if_neg haw]
          exact ih

theorem objGet_objDelete_self (m : Stacks) (k : String) :
    objGet (objDelete m k) k = none := by
  induction m with
  | nil => simp [objDelete, objGet]
  | cons a t ih =>
      rw [objDelete_cons]
      by_cases ha : a.1 = k
      · rw [if_pos ha]; exact ih
      · rw [if_neg ha, objGet_cons, if_neg ha]; exact ih

theorem objGet_objDelete_ne (m : Stacks) (k w : String) (hne : ¬ w = k) :
    objGet (objDelete m k) w = objGet m w := by
  induction m with
  | nil => simp [objDelete, objGet]
  | cons a t ih =>
      rw [objDelete_cons, objGet_cons]
      by_cases ha : a.1 = k
      · have haw : ¬ a.1 = w := fun h => hne ((ha ▸ h : k = w)).symm
        rw [if_pos ha, if_neg haw]; exact ih
      · rw [if_neg ha, objGet_cons]
        by_cases haw : a.1 = w
        · rw [if_pos haw, if_pos haw]
        · rw [if_neg haw, if_neg haw]; exact ih

/-! ## Helper lemmas: stack metadata operations -/

theorem getStackParent_set_self (st : Option Stacks) (c : String) (v : StackMetadata) :
    getStackParent (setStackMetadata st c v) c = some (v.basedOn, v.baseBranch) := by
  cases st with
  | none =>
      rw [setStackMetadata, getStackParent, getStackMetadata, objGet_objSet_self]
  | some m =>
      rw [setStackMetadata, getStackParent, getStackMetadata, objGet_objSet_self]

theorem getStackParent_set_ne (st : Option Stacks) (c w : String) (v : StackMetadata)
    (hne : ¬ w = c) :
    getStackParent (setStackMetadata st c v) w = getStackParent st w := by
  cases st with
  | none =>
      rw [setStackMetadata, getStackParent, getStackMetadata,
        objGet_objSet_ne ([] : Stacks) c w v hne]
      rfl
  | some m =>
      rw [setStackMetadata, getStackParent, getStackMetadata,
        objGet_objSet_ne m c w v hne]
      rfl

theorem getStackParent_remove_self (st : Option Stacks) (c : String) :
    getStackParent (removeStackMetadata st c) c = none := by
  cases st with
  | none => rfl
  | some m =>
      rw [removeStackMetadata, getStackParent, getStackMetadata, objGet_objDelete_self]

theorem getStackParent_remove_ne (st : Option Stacks) (c w : String) (hne : ¬ w = c) :
    getStackParent (removeStackMetadata st c) w = getStackParent st w := by
  cases st with
  | none => rfl
  | some m =>
      rw [removeStackMetadata, getStackParent, getStackMetadata,
        objGet_objDelete_ne m c w hne]
      rfl

/-- C5. Round-trip of the stack-edge store: after `setEdge(c, p, b)`
(`setStackMetadata`), `getParent(c)` (`getStackParent`) returns `(p, b)`, and
after `removeEdge(c)` (`removeStackMetadata`), `getParent(c)` returns
none — over every starting edge mapping. -/
theorem claim_C5_stack_roundtrip :
    (∀ (st : Option Stacks) (c p b : String),
        getStackParent (setStackMetadata st c ⟨p, b⟩) c = some (p, b)) ∧
    (∀ (st : Option Stacks) (c : String),
        getStackParent (removeStackMetadata st c) c = none) :=
  ⟨fun st c p b => getStackParent_set_self st c ⟨p, b⟩,
   fun st c => getStackParent_remove_self st c⟩

/-! ## Helper lemmas: cycle detection -/

/-- The loop exits immediately (for any fuel) once `current` is the falsy
empty string. -/
theorem detectLoop_empty_current (st : Option Stacks) (nw : String)
    (fuel : Nat) (visited : List String) :
    detectLoop st nw fuel "" visited = some false := by
  cases fuel <;> simp [detectLoop]

/-- The keys of the edge mapping: the workspaces that have a parent. -/
def stackKeys (st : Option Stacks) : List String :=
  match st with
  | none => []
  | some m => m.map Prod.fst

theorem length_stackKeys (st : Option Stacks) :
    (stackKeys st).length = stacksSize st := by
  cases st <;> simp [stackKeys, stacksSize]

theorem mem_stackKeys_of_getStackParent (st : Option Stacks) (c : String)
    (p : String × String) (h : getStackParent st c = some p) : c ∈ stackKeys st := by
  cases st with
  | none => simp [getStackParent, getStackMetadata] at h
  | some m =>
      rw [getStackParent] at h
      cases hm : getStackMetadata (some m) c with
      | none => rw [hm] at h; cases h
      | some v =>
          rw [getStackMetadata] at hm
          unfold objGet at hm
          cases hf : List.find? (fun p => p.1 = c) m with
          | none => rw [hf] at hm; cases hm
          | some q =>
              have hq : q.1 = c := by simpa using List.find?_some hf
              have hmem := List.mem_of_find?_eq_some hf
              rw [stackKeys]
              exact hq ▸ List.mem_map_of_mem Prod.fst hmem

/-- Adding a node to the visited set never increases the number of
unvisited keys. -/
theorem length_filter_unvisited_cons_le (l : List String) (c : String)
    (visited : List String) :
    (l.filter (fun x => !(c :: visited).contains x)).length
      ≤ (l.filter (fun x => !visited.contains x)).length := by
  induction l with
  | nil => simp
  | cons a t ih =>
      simp only [List.filter_cons]
      by_cases hv : visited.contains a = true
      · have h1 : (c :: visited).contains a = true := by
          rw [List.contains_cons, hv, Bool.or_true]
        rw [h1, hv, Bool.not_true, if_neg Bool.false_ne_true, if_neg Bool.false_ne_true]
        exact ih
      · have hv' : visited.contains a = false := Bool.eq_false_iff.mpr hv
        by_cases hc : (a == c) = true
        · have h1 : (c :: visited).contains a = true := by
            rw [List.contains_cons, hc, Bool.true_or]
          rw [h1, hv', Bool.not_true, Bool.not_false, if_neg Bool.false_ne_true,
            if_pos rfl, List.length_cons]
          exact le_trans ih (Nat.le_succ _)
        · have hc' : (a == c) = false := Bool.eq_false_iff.mpr hc
          have h1 : (c :: visited).contains a = false := by
            rw [List.contains_cons, hc', hv', Bool.or_false]
          rw [h1, hv', Bool.not_false, if_pos rfl, if_pos rfl,
            List.length_cons, List.length_cons]
          exact Nat.succ_le_succ ih

/-- Visiting an unvisited key strictly shrinks the unvisited key count. -/
theorem length_filter_unvisited_cons_lt (l : List String) (c : String)
    (visited : List String) (hcl : c ∈ l) (hcv : visited.contains c = false) :
    (l.filter (fun x => !(c :: visited).contains x)).length
      < (l.filter (fun x => !visited.contains x)).length := by
  induction l with
  | nil => cases hcl
  | cons a t ih =>
      simp only [List.filter_cons]
      by_cases hc : (a == c) = true
      · have hac : a = c := by simpa using hc
        have h1 : (c :: visited).contains a = true := by
          rw [List.contains_cons, hc, Bool.true_or]
        have h2 : visited.contains a = false := by rw [hac]; exact hcv
        rw [h1, h2, Bool.not_true, Bool.not_false, if_neg Bool.false_ne_true,
          if_pos rfl, List.length_cons]
        exact Nat.lt_succ_of_le (length_filter_unvisited_cons_le t c visited)
      · have hc' : (a == c) = false := Bool.eq_false_iff.mpr hc
        have hct : c ∈ t := by
          rcases List.mem_cons.mp hcl with h | h
          · exact absurd (beq_iff_eq.mpr h.symm) hc
          · exact h
        by_cases hv : visited.contains a = true
        · have h1 : (c :: visited).contains a = true := by
            rw [List.contains_cons, hv, Bool.or_true]
          rw [h1, hv, Bool.not_true, if_neg Bool.false_ne_true, if_neg Bool.false_ne_true]
          exact ih hct
        · have hv' : visited.contains a = false := Bool.eq_false_iff.mpr hv
          have h1 : (c :: visited).contains a = false := by
            rw [List.contains_cons, hc', hv', Bool.or_false]
          rw [h1, hv', Bool.not_false, if_pos rfl, if_pos rfl,
            List.length_cons, List.length_cons]
          exact Nat.succ_lt_succ (ih hct)

/-- The loop returns a definite answer whenever the fuel exceeds the number
of still-unvisited keys: each iteration that continues consumes a distinct
unvisited key of the edge mapping. -/
theorem detectLoop_isSome (st : Option Stacks) (nw : String) :
    ∀ (fuel : Nat) (current : String) (visited : List String),
      ((stackKeys st).filter (fun x => !visited.contains x)).length + 1 ≤ fuel →
      (detectLoop st nw fuel current visited).isSome = true := by
  intro fuel
  induction fuel with
  | zero => intro current visited h; omega
  | succ f ih =>
      intro current visited h
      rw [detectLoop]
      by_cases hc : current = ""
      · rw [if_pos hc]; rfl
      · rw [if_neg hc]
        by_cases hv : visited.contains current = true
        · rw [if_pos (by rw [hv, Bool.true_or] :
            (visited.contains current || (current == nw)) = true)]
          rfl
        · have hv' : visited.contains current = false := Bool.eq_false_iff.mpr hv
          by_cases hnw : (current == nw) = true
          · rw [if_pos (by rw [hv', hnw, Bool.false_or] :
              (visited.contains current || (current == nw)) = true)]
            rfl
          · have hnw' : (current == nw) = false := Bool.eq_false_iff.mpr hnw
            have hcond : (visited.contains current || (current == nw)) = false := by
              rw [hv', hnw', Bool.or_false]
            rw [if_neg (by rw [hcond]; exact Bool.false_ne_true)]
            cases hp : getStackParent st current with
            | none =>
                have hsp : stepParent st current = "" := by rw [stepParent, hp]
                rw [hsp, detectLoop_empty_current]
                rfl
            | some p =>
                have hkey := mem_stackKeys_of_getStackParent st current p hp
                have hlt := length_filter_unvisited_cons_lt (stackKeys st) current visited
                  hkey hv'
                exact ih (stepParent st current) (current :: visited) (by omega)

/-! ## Claims C1 and C10: cycle detection -/

/-- The spec's worked example: edges `{B: A, C: B}` (C based on B, B based
on A). -/
def exStacks : Option Stacks :=
  some [("B", ⟨"A", "branch-a"⟩), ("C", ⟨"B", "branch-b"⟩)]

/-- C1. `detectCircularDependency` walks upward from the candidate parent
following `getStackParent`, keeping a visited set: one loop step returns
true on a revisit of an already-visited node, returns true on reaching the
proposed child, returns false once it reaches a root (no parent), and
otherwise continues at the parent with the node added to the visited set.
On the edge mapping `{B: A, C: B}` the walk yields
`detectCircularDependency C A = true` and
`detectCircularDependency A C = false`. -/
theorem claim_C1_detectCircularDependency :
    (∀ (st : Option Stacks) (nw current : String) (fuel : Nat) (visited : List String),
        ¬ current = "" → visited.contains current = true →
        detectLoop st nw (fuel + 1) current visited = some true) ∧
    (∀ (st : Option Stacks) (current : String) (fuel : Nat) (visited : List String),
        ¬ current = "" →
        detectLoop st current (fuel + 1) current visited = some true) ∧
    (∀ (st : Option Stacks) (nw current : String) (fuel : Nat) (visited : List String),
        ¬ current = "" → visited.contains current = false → ¬ current = nw →
        getStackParent st current = none →
        detectLoop st nw (fuel + 1) current visited = some false) ∧
    (∀ (st : Option Stacks) (nw current : String) (fuel : Nat) (visited : List String)
        (p : String × String),
        ¬ current = "" → visited.contains current = false → ¬ current = nw →
        getStackParent st current = some p →
        detectLoop st nw (fuel + 1) current visited
          = detectLoop st nw fuel p.1 (current :: visited)) ∧
    detectCircularDependency exStacks "C" "A" = true ∧
    detectCircularDependency exStacks "A" "C" = false := by
  refine ⟨?_, ?_, ?_, ?_, ?_, ?_⟩
  · intro st nw current fuel visited hc hv
    rw [detectLoop, if_neg hc,
      if_pos (by rw [hv, Bool.true_or] :
        (visited.contains current || (current == nw)) = true)]
  · intro st current fuel visited hc
    rw [detectLoop, if_neg hc]
    rw [if_pos (by rw [beq_self_eq_true, Bool.or_true] :
      (visited.contains current || (current == current)) = true)]
  · intro st nw current fuel visited hc hv hnw hp
    have hnw' : (current == nw) = false := by
      rw [beq_eq_false_iff_ne]; exact hnw
    rw [detectLoop, if_neg hc,
      if_neg (by rw [hv, hnw', Bool.or_false]; exact Bool.false_ne_true)]
    have hsp : stepParent st current = "" := by rw [stepParent, hp]
    rw [hsp, detectLoop_empty_current]
  · intro st nw current fuel visited p hc hv hnw hp
    have hnw' : (current == nw) = false := by
      rw [beq_eq_false_iff_ne]; exact hnw
    rw [detectLoop, if_neg hc,
      if_neg (by rw [hv, hnw', Bool.or_false]; exact Bool.false_ne_true)]
    have hsp : stepParent st current = p.1 := by rw [stepParent, hp]
    rw [hsp]
  · decide
  · decide

/-- Witness for C1: each hypothesised conjunct instantiated at concrete
inputs. -/
theorem claim_C1_witness :
    detectLoop (some []) "n" 1 "a" ["a"] = some true ∧
    detectLoop (some []) "a" 1 "a" [] = some true ∧
    detectLoop (some []) "n" 1 "a" [] = some false ∧
    detectLoop exStacks "n" 1 "C" [] = detectLoop exStacks "n" 0 "B" ["C"] :=
  ⟨claim_C1_detectCircularDependency.1 (some []) "n" "a" 0 ["a"]
      (by decide) (by decide),
   claim_C1_detectCircularDependency.2.1 (some []) "a" 0 [] (by decide),
   claim_C1_detectCircularDependency.2.2.1 (some []) "n" "a" 0 []
      (by decide) (by decide) (by decide) (by decide),
   claim_C1_detectCircularDependency.2.2.2.1 exStacks "n" "C" 0 []
      ("B", "branch-b") (by decide) (by decide) (by decide) (by decide)⟩

/-- C10. `detectCircularDependency` terminates on every finite edge
mapping, cyclic ones included: with fuel `stacksSize st + 2` — one step per
distinct key plus the initial node and the final root step — the loop
reaches a definite answer, and `detectCircularDependency` returns exactly
that answer. -/
theorem claim_C10_detect_terminates :
    ∀ (st : Option Stacks) (parentWorkspace newWorkspace : String),
      ∃ b, detectLoop st newWorkspace (stacksSize st + 2) parentWorkspace [] = some b ∧
        detectCircularDependency st parentWorkspace newWorkspace = b := by
  intro st p n
  have hfilter : (stackKeys st).filter (fun x => !(List.contains [] x)) = stackKeys st := by
    refine List.filter_eq_self.mpr ?_
    intro a _
    rfl
  have hsome := detectLoop_isSome st n (stacksSize st + 2) p [] (by
    rw [hfilter, length_stackKeys]; omega)
  rcases Option.isSome_iff_exists.mp hsome with ⟨b, hb⟩
  exact ⟨b, hb, by rw [detectCircularDependency, hb]; rfl⟩

/-! ## Claims C7 and C9: concrete fuzzy-matcher behaviour -/

/-- Counterexample to C7 as stated: the self-match of "abc" does not score
94. -/
theorem claim_C7_counterexample :
    ¬ calculateMatchScore "abc" "abc" = ⟨94, [0, 1, 2]⟩ := by
  decide

/-- C7 (amended). `calculateMatchScore("abc", "abc")` matches indices
`[0, 1, 2]` and scores exactly 96 = 50 base + 15 start + 10 + 10
consecutive + 5 index-0 boundary + 2 + 2 + 2 exact-case, with zero gap
penalty: the spec's component breakdown is the code's, but those components
sum to 96, not the stated 94. -/
theorem claim_C7_abc_score :
    calculateMatchScore "abc" "abc" = ⟨96, [0, 1, 2]⟩ ∧
    (96 : Int) = 50 + 15 + (10 + 10) + 5 + (2 + 2 + 2) - 0 := by
  constructor
  · decide
  · decide

/-- C9. An empty query or an empty candidate short-circuits
`calculateMatchScore` to score 0 with no matched indices: the base score of
50 is never awarded through the vacuous-match route. -/
theorem claim_C9_empty_inputs :
    ∀ (query candidate : String), query = "" ∨ candidate = "" →
      calculateMatchScore query candidate = ⟨0, []⟩ := by
  intro query candidate h
  rcases h with h | h
  · subst h
    rw [calculateMatchScore,
      if_pos (by rw [show String.isEmpty "" = true from rfl, Bool.true_or])]
  · subst h
    rw [calculateMatchScore,
      if_pos (by rw [show String.isEmpty "" = true from rfl, Bool.or_true])]

/-- Witness for C9 at a concrete empty query. -/
theorem claim_C9_witness :
    calculateMatchScore "" "workspace" = ⟨0, []⟩ :=
  claim_C9_empty_inputs "" "workspace" (Or.inl rfl)

/-! ## Claim C6: failed matches

The greedy occurrence search of `calculateMatchScore` only succeeds when the
lowercased query really is a subsequence of the lowercased candidate, so a
non-subsequence query always yields `(0, [])`. -/

theorem indexOfFrom_spec (c : Char) :
    ∀ (l : List Char) (s i : Nat), indexOfFrom l c s = some i →
      s ≤ i ∧ l[i]? = some c := by
  intro l
  induction l with
  | nil => intro s i h; cases h
  | cons a t ih =>
      intro s i h
      cases s with
      | zero =>
          rw [indexOfFrom] at h
          by_cases ha : a = c
          · rw [if_pos ha] at h
            have h0 : (0 : Nat) = i := Option.some.inj h
            subst h0
            exact ⟨Nat.le_refl 0, by simp [ha]⟩
          · rw [if_neg ha] at h
            rcases Option.map_eq_some'.mp h with ⟨j, hj, hji⟩
            rcases ih 0 j hj with ⟨_, hget⟩
            subst hji
            exact ⟨Nat.zero_le _, by simpa using hget⟩
      | succ s' =>
          rw [indexOfFrom] at h
          rcases Option.map_eq_some'.mp h with ⟨j, hj, hji⟩
          rcases ih s' j hj with ⟨hle, hget⟩
          subst hji
          exact ⟨Nat.succ_le_succ hle, by simpa using hget⟩

theorem cons_sublist_of_getElem (a : Char) :
    ∀ (n : Nat) (l t : List Char), l[n]? = some a →
      List.Sublist t (l.drop (n + 1)) → List.Sublist (a :: t) l := by
  intro n
  induction n with
  | zero =>
      intro l t hget hsub
      cases l with
      | nil => simp at hget
      | cons b l' =>
          have hb : b = a := by simpa using hget
          subst hb
          exact List.Sublist.cons₂ _ (by simpa using hsub)
  | succ n' ih =>
      intro l t hget hsub
      cases l with
      | nil => simp at hget
      | cons b l' =>
          have hget' : l'[n']? = some a := by simpa using hget
          have hsub' : List.Sublist t (l'.drop (n' + 1)) := by simpa using hsub
          exact List.Sublist.cons _ (ih l' t hget' hsub')

/-- A successful greedy search certifies that the query is a subsequence of
the candidate suffix it searched. -/
theorem findIndices_sublist :
    ∀ (q cand : List Char) (s : Nat) (idxs : List Nat),
      findIndices q cand s = some idxs → List.Sublist q (cand.drop s) := by
  intro q
  induction q with
  | nil => intro cand s idxs _; exact List.nil_sublist _
  | cons qc qs ih =>
      intro cand s idxs h
      rw [findIndices] at h
      cases hidx : indexOfFrom cand qc s with
      | none => rw [hidx] at h; cases h
      | some idx =>
          rw [hidx] at h
          rcases Option.map_eq_some'.mp h with ⟨idxs', hrec, _⟩
          rcases indexOfFrom_spec qc cand s idx hidx with ⟨hle, hget⟩
          have hsub := ih cand (idx + 1) idxs' hrec
          have hget' : (cand.drop s)[idx - s]? = some qc := by
            rw [List.getElem?_drop, Nat.add_sub_cancel' hle]
            exact hget
          have hsub' : List.Sublist qs ((cand.drop s).drop (idx - s + 1)) := by
            rw [List.drop_drop]
            have harith : s + (idx - s + 1) = idx + 1 := by omega
            rw [harith]
            exact hsub
          exact cons_sublist_of_getElem qc (idx - s) (cand.drop s) qs hget' hsub'

/-- C6. Whenever the query is not a case-insensitive subsequence of the
candidate, `calculateMatchScore` returns score 0 and an empty
`matchedIndices` sequence. -/
theorem claim_C6_nonsubsequence :
    ∀ (query candidate : String),
      ¬ List.Sublist (query.toList.map Char.toLower) (candidate.toList.map Char.toLower) →
      calculateMatchScore query candidate = ⟨0, []⟩ := by
  intro query candidate hns
  rw [calculateMatchScore]
  by_cases hemp : (query.isEmpty || candidate.isEmpty) = true
  · rw [if_pos hemp]
  · rw [if_neg hemp]
    cases hfi : findIndices (query.toList.map Char.toLower)
        (candidate.toList.map Char.toLower) 0 with
    | none => rfl
    | some idxs =>
        exact absurd (by simpa using findIndices_sublist _ _ 0 idxs hfi) hns

/-- Witness for C6: "x" is not a subsequence of "abc". -/
theorem claim_C6_witness :
    calculateMatchScore "x" "abc" = ⟨0, []⟩ :=
  claim_C6_nonsubsequence "x" "abc" (by decide)

/-! ## Claim C4: exact match bypasses fuzzy matching -/

/-- C4. If the typed query exactly equals a live workspace name, the
resolver returns that workspace at once, for every candidate set and force
flag — the fuzzy matcher and ranker are never consulted. -/
theorem claim_C4_exact_match_wins :
    ∀ (workspaces : List String) (candidates : List WorkspaceCandidate)
      (query : String) (force : Bool),
      workspaces.contains query = true →
      resolveWorkspaceName workspaces candidates query force
        = ResolveResult.exact query := by
  intro ws cands q force h
  rw [resolveWorkspaceName, if_pos h]

/-- Witness for C4: an exact hit among two live names, with a candidate set
that would fuzzy-match something else. -/
theorem claim_C4_witness :
    resolveWorkspaceName ["alpha", "beta"] [] "beta" false
      = ResolveResult.exact "beta" :=
  claim_C4_exact_match_wins ["alpha", "beta"] [] "beta" false (by decide)

/-! ## Claim C8: the workspace ranker -/

theorem mem_insertDescBy {α : Type} (key : α → Int) (x z : α) :
    ∀ l : List α, z ∈ insertDescBy key x l ↔ z = x ∨ z ∈ l := by
  intro l
  induction l with
  | nil => simp [insertDescBy]
  | cons y ys ih =>
      rw [insertDescBy]
      by_cases h : key y ≤ key x
      · rw [if_pos h]
        simp [List.mem_cons]
      · rw [if_neg h]
        simp [List.mem_cons, ih]
        tauto

theorem pairwise_insertDescBy {α : Type} (key : α → Int) (x : α) :
    ∀ l : List α, l.Pairwise (fun a b => key b ≤ key a) →
      (insertDescBy key x l).Pairwise (fun a b => key b ≤ key a) := by
  intro l
  induction l with
  | nil => intro h; simp [insertDescBy]
  | cons y ys ih =>
      intro hp
      rcases List.pairwise_cons.mp hp with ⟨hy, hys⟩
      rw [insertDescBy]
      by_cases h : key y ≤ key x
      · rw [if_pos h]
        refine List.Pairwise.cons ?_ hp
        intro z hz
        rcases List.mem_cons.mp hz with rfl | hz'
        · exact h
        · exact le_trans (hy z hz') h
      · rw [if_neg h]
        refine List.Pairwise.cons ?_ (ih hys)
        intro z hz
        rcases (mem_insertDescBy key x z ys).mp hz with rfl | hz'
        · exact le_of_lt (lt_of_not_le h)
        · exact hy z hz'

theorem pairwise_sortDescBy {α : Type} (key : α → Int) :
    ∀ l : List α, (sortDescBy key l).Pairwise (fun a b => key b ≤ key a) := by
  intro l
  induction l with
  | nil => simp [sortDescBy]
  | cons x xs ih => exact pairwise_insertDescBy key x _ ih

/-- C8. The ranker computes
`finalScore = matchScore + (length ≤ 15 ? 5 : 0) + (session ? 10 : 0)`,
sorts descending by `finalScore`, and consequently, for two matches with
equal match scores and equal name lengths, the one with an active session
lands strictly above the one without. -/
theorem claim_C8_ranker :
    (∀ m : FuzzyMatchR,
        (rankEntry m).finalScore
          = m.score + (if m.item.name.length ≤ 15 then 5 else 0)
            + (if m.item.hasActiveTmuxSession then 10 else 0)) ∧
    (∀ ms : List FuzzyMatchR,
        (rankMatches ms).Pairwise (fun a b => b.finalScore ≤ a.finalScore)) ∧
    (∀ m₁ m₂ : FuzzyMatchR,
        m₁.score = m₂.score →
        m₁.item.name.length = m₂.item.name.length →
        m₁.item.hasActiveTmuxSession = true →
        m₂.item.hasActiveTmuxSession = false →
        (rankEntry m₂).finalScore < (rankEntry m₁).finalScore ∧
        rankMatches [m₂, m₁] = [rankEntry m₁, rankEntry m₂]) := by
  refine ⟨fun m => rfl, fun ms => pairwise_sortDescBy _ _, ?_⟩
  intro m₁ m₂ hs hl h1 h2
  have hlt : (rankEntry m₂).finalScore < (rankEntry m₁).finalScore := by
    simp only [rankEntry]
    rw [hs, hl, h1, h2]
    simp only [if_true, if_false, Bool.false_eq_true]
    by_cases hlen : m₂.item.name.length ≤ 15
    · rw [if_pos hlen]; omega
    · rw [if_neg hlen]; omega
  refine ⟨hlt, ?_⟩
  rw [rankMatches, List.map_cons, List.map_cons, List.map_nil,
    sortDescBy, sortDescBy, sortDescBy, insertDescBy,
    insertDescBy, if_neg (not_le.mpr hlt), insertDescBy]

/-- Concrete candidates used by witnesses. -/
def exCandA : WorkspaceCandidate :=
  ⟨"aaa", "/ws/aaa", "main", 0, 0, 0, "init", true⟩

/-- Concrete candidate without a session. -/
def exCandB : WorkspaceCandidate :=
  ⟨"bbb", "/ws/bbb", "main", 0, 0, 0, "init", false⟩

/-- Witness for C8: equal scores and name lengths, sessions differing. -/
theorem claim_C8_witness :
    (rankEntry ⟨exCandB, 42, []⟩).finalScore
        < (rankEntry ⟨exCandA, 42, []⟩).finalScore ∧
    rankMatches [⟨exCandB, 42, []⟩, ⟨exCandA, 42, []⟩]
      = [rankEntry ⟨exCandA, 42, []⟩, rankEntry ⟨exCandB, 42, []⟩] :=
  claim_C8_ranker.2.2 ⟨exCandA, 42, []⟩ ⟨exCandB, 42, []⟩ rfl rfl rfl rfl

/-! ## Claim C2: the removal cascade -/

theorem cascadeChild_outcome (parent : Option (String × String)) (pe : Bool)
    (env : ChildEnv) (st : Option Stacks) (child : String) :
    (cascadeChild parent pe env st child).2.1
      = if env.fetchOk && env.rebaseOk then ChildOutcome.success
        else ChildOutcome.failed := by
  cases hf : env.fetchOk <;> cases hr : env.rebaseOk <;>
    cases parent <;> cases pe <;> simp [cascadeChild, hf, hr]

/-- Effect of one cascade step on the edge map when the removed workspace
had a parent that still exists: a successful child is re-pointed, a failed
one left alone. -/
theorem cascadeChild_stacks (p : String × String) (env : ChildEnv)
    (st : Option Stacks) (child : String) :
    (cascadeChild (some p) true env st child).1
      = if env.fetchOk && env.rebaseOk then setStackMetadata st child ⟨p.1, p.2⟩
        else st := by
  cases hf : env.fetchOk <;> cases hr : env.rebaseOk <;> simp [cascadeChild, hf, hr]

/-- Every child is attempted, in the supplied order, and its outcome
recorded — regardless of any failures along the way. -/
theorem cascadeRebase_outcomes (parent : Option (String × String)) (pe : Bool)
    (envOf : String → ChildEnv) :
    ∀ (children : List String) (st : Option Stacks),
      (cascadeRebase parent pe envOf st children).2
        = children.map (fun c =>
            (c, if (envOf c).fetchOk && (envOf c).rebaseOk then ChildOutcome.success
                else ChildOutcome.failed)) := by
  intro children
  induction children with
  | nil => intro st; rfl
  | cons child rest ih =>
      intro st
      simp only [cascadeRebase, List.map_cons]
      rw [ih, cascadeChild_outcome]

/-- A workspace that is not one of the cascaded children keeps its edge. -/
theorem cascadeRebase_stacks_not_mem (p : String × String)
    (envOf : String → ChildEnv) :
    ∀ (children : List String) (st : Option Stacks) (w : String),
      ¬ w ∈ children →
      getStackParent ((cascadeRebase (some p) true envOf st children).1) w
        = getStackParent st w := by
  intro children
  induction children with
  | nil => intro st w _; rfl
  | cons child rest ih =>
      intro st w hw
      have hw1 : ¬ w = child := fun h => hw (h ▸ List.mem_cons_self child rest)
      have hw2 : ¬ w ∈ rest := fun h => hw (List.mem_cons_of_mem child h)
      simp only [cascadeRebase]
      rw [ih _ w hw2, cascadeChild_stacks]
      cases hok : ((envOf child).fetchOk && (envOf child).rebaseOk) with
      | true => rw [if_pos rfl]; exact getStackParent_set_ne st child w _ hw1
      | false => rw [if_neg Bool.false_ne_true]

/-- After the cascade, a child's edge points at the grandparent exactly when
its rebase succeeded, and is untouched when it failed. -/
theorem cascadeRebase_stacks_mem (p : String × String)
    (envOf : String → ChildEnv) :
    ∀ (children : List String) (st : Option Stacks), children.Nodup →
      ∀ c ∈ children,
        (((envOf c).fetchOk && (envOf c).rebaseOk) = true →
            getStackParent ((cascadeRebase (some p) true envOf st children).1) c
              = some p) ∧
        (((envOf c).fetchOk && (envOf c).rebaseOk) = false →
            getStackParent ((cascadeRebase (some p) true envOf st children).1) c
              = getStackParent st c) := by
  intro children
  induction children with
  | nil => intro st _ c hc; cases hc
  | cons child rest ih =>
      intro st hnd c hc
      have hnd' := List.nodup_cons.mp hnd
      simp only [cascadeRebase]
      rcases List.mem_cons.mp hc with rfl | hcr
      · constructor
        · intro hok
          rw [cascadeRebase_stacks_not_mem p envOf rest _ c hnd'.1,
            cascadeChild_stacks, if_pos hok, getStackParent_set_self]
        · intro hko
          rw [cascadeRebase_stacks_not_mem p envOf rest _ c hnd'.1,
            cascadeChild_stacks, if_neg (by rw [hko]; exact Bool.false_ne_true)]
      · have hcc : ¬ c = child := fun h => hnd'.1 (h ▸ hcr)
        have hrest := ih ((cascadeChild (some p) true (envOf child) st child).1)
          hnd'.2 c hcr
        constructor
        · intro hok
          exact hrest.1 hok
        · intro hko
          rw [hrest.2 hko, cascadeChild_stacks]
          cases hok2 : ((envOf child).fetchOk && (envOf child).rebaseOk) with
          | true => rw [if_pos rfl]; exact getStackParent_set_ne st child c _ hcc
          | false => rw [if_neg Bool.false_ne_true]

/-- The spec's concrete scenario: three children of the removed workspace
"dead", all to be re-based onto grandparent "gp". -/
def exCascadeStacks : Option Stacks :=
  some [("w1", ⟨"dead", "db"⟩), ("w2", ⟨"dead", "db"⟩), ("w3", ⟨"dead", "db"⟩)]

/-- Per-child git behaviour for the scenario: only the second child's rebase
fails. -/
def exEnvOf : String → ChildEnv :=
  fun c => if c = "w2" then ⟨false, true, false⟩ else ⟨false, true, true⟩

/-- C2. A failed child rebase never stops the cascade: the outcome list
covers every child in input order with failures marked, a child's edge is
re-pointed at the new base exactly when its rebase succeeded and left
unchanged when it failed, non-children are untouched — and on the concrete
three-child run where only the second fails, three ordered outcomes with
one failure are produced and only the first and third edges change. -/
theorem claim_C2_cascade_partial_failure :
    (∀ (parent : Option (String × String)) (pe : Bool) (envOf : String → ChildEnv)
        (st : Option Stacks) (children : List String),
        (cascadeRebase parent pe envOf st children).2
          = children.map (fun c =>
              (c, if (envOf c).fetchOk && (envOf c).rebaseOk then ChildOutcome.success
                  else ChildOutcome.failed))) ∧
    (∀ (p : String × String) (envOf : String → ChildEnv) (children : List String)
        (st : Option Stacks), children.Nodup →
        ∀ c ∈ children,
          (((envOf c).fetchOk && (envOf c).rebaseOk) = true →
              getStackParent ((cascadeRebase (some p) true envOf st children).1) c
                = some p) ∧
          (((envOf c).fetchOk && (envOf c).rebaseOk) = false →
              getStackParent ((cascadeRebase (some p) true envOf st children).1) c
                = getStackParent st c)) ∧
    (∀ (p : String × String) (envOf : String → ChildEnv) (children : List String)
        (st : Option Stacks) (w : String), ¬ w ∈ children →
        getStackParent ((cascadeRebase (some p) true envOf st children).1) w
          = getStackParent st w) ∧
    cascadeRebase (some ("gp", "gb")) true exEnvOf exCascadeStacks ["w1", "w2", "w3"]
      = (some [("w1", ⟨"gp", "gb"⟩), ("w2", ⟨"dead", "db"⟩), ("w3", ⟨"gp", "gb"⟩)],
         [("w1", ChildOutcome.success), ("w2", ChildOutcome.failed),
          ("w3", ChildOutcome.success)]) := by
  refine ⟨?_, ?_, ?_, ?_⟩
  · intro parent pe envOf st children
    exact cascadeRebase_outcomes parent pe envOf children st
  · intro p envOf children st hnd c hc
    exact cascadeRebase_stacks_mem p envOf children st hnd c hc
  · intro p envOf children st w hw
    exact cascadeRebase_stacks_not_mem p envOf children st w hw
  · decide

/-- Witness for C2: the failed second child of the concrete run keeps its
original edge. -/
theorem claim_C2_witness :
    getStackParent ((cascadeRebase (some ("gp", "gb")) true exEnvOf exCascadeStacks
        ["w1", "w2", "w3"]).1) "w2"
      = getStackParent exCascadeStacks "w2" :=
  (claim_C2_cascade_partial_failure.2.1 ("gp", "gb") exEnvOf ["w1", "w2", "w3"]
      exCascadeStacks (by decide) "w2" (by decide)).2 (by decide)

/-! ## Claim C3: the clean-working-tree precondition

The standalone `rebase-stack` command checks `git status --porcelain` and
refuses to proceed before fetching.  The per-child rebase inside the removal
cascade of `removeWorkspace` performs no such check: it fetches and rebases
whatever the child's working-tree state. -/

/-- Counterexample to C3 as stated: a cascade child whose working tree is
dirty (`statusDirty = true`) is fetched and rebased anyway — and its edge
updated — rather than failing a precondition with no git activity. -/
theorem claim_C3_counterexample :
    cascadeChild (some ("gp", "gb")) true ⟨true, true, true⟩
        (some [("c", ⟨"dead", "db"⟩)]) "c"
      = (some [("c", ⟨"gp", "gb"⟩)], ChildOutcome.success,
         [GitOp.fetch, GitOp.rebase]) := by
  decide

/-- C3 (amended). Only the standalone rebase-stack flow enforces the
clean-tree precondition, erroring before any fetch; each per-child rebase
attempt in the removal cascade begins with a fetch unconditionally, never
consulting the child's uncommitted changes. -/
theorem claim_C3_precondition :
    (∀ (env : RebaseEnv) (auto : Bool) (meta : StackMetadata),
        env.stackMeta = some meta → env.parentExists = true →
        env.statusDirty = true →
        rebaseStack env auto = (RebaseStackResult.uncommittedError, [])) ∧
    (∀ (parent : Option (String × String)) (pe : Bool) (env : ChildEnv)
        (st : Option Stacks) (child : String),
        (cascadeChild parent pe env st child).2.2.head? = some GitOp.fetch) := by
  constructor
  · intro env auto meta hmeta hpe hsd
    rw [rebaseStack]
    rw [hmeta]
    rw [if_neg (by rw [hpe]; exact fun h => Bool.false_ne_true h.symm)]
    rw [if_pos hsd]
  · intro parent pe env st child
    cases hf : env.fetchOk <;> cases hr : env.rebaseOk <;>
      cases parent <;> cases pe <;> simp [cascadeChild, hf, hr]

/-- Witness for C3 (amended): a dirty standalone rebase errors with no git
ops; a cascade child's op trace starts with a fetch. -/
theorem claim_C3_witness :
    rebaseStack ⟨some ⟨"p", "b"⟩, true, true, true, true, true⟩ false
      = (RebaseStackResult.uncommittedError, []) ∧
    (cascadeChild none false ⟨true, true, true⟩ none "c").2.2.head?
      = some GitOp.fetch :=
  ⟨claim_C3_precondition.1 ⟨some ⟨"p", "b"⟩, true, true, true, true, true⟩ false
      ⟨"p", "b"⟩ rfl rfl rfl,
   claim_C3_precondition.2 none false ⟨true, true, true⟩ none "c"⟩

end Spaces
